import Mathlib

/-! # rtime: remote time by closest-pair consensus

A shallow embedding of `rtime.go` (package `rtime`, function `Now`) together with the
parts of the Go standard library it relies on (`time.Time`, `time.Duration`, `sort.Slice`),
followed by theorems about the selection of the candidate estimate, the monotonic clamp on
the process-wide variable `rtime`, and the quorum / timeout wait loop.

Concurrency is not modelled.  The wait loop of `Now` is driven by the list of states of
`(res, timedout)` which the calling goroutine sees, under `mu`, on entry and after every
wake-up from `cond.Wait()`.
-/

namespace Rtime

/-! ## The standard library types used by `Now` -/

/-- Go `*time.Location` as far as `Now` can tell locations apart: `UTC` (the nil location
of the zero `Time`), `Local`, and the fabricated fixed zones `time.Parse` builds for a zone
abbreviation it does not know. -/
inductive Location where
  | UTC : Location
  | Local : Location
  | FixedZone (name : String) (offset : Int) : Location
deriving DecidableEq

/-- Go `time.Time` without a monotonic clock reading (which is what `time.Parse` returns and
what `rtime` ever holds): `sec` is `t.sec()`, the seconds since January 1, year 1 00:00:00 UTC,
`nsec` is `t.nsec()`, in the range [0, 999999999], and `loc` is the location pointer. -/
structure Time where
  sec : Int
  nsec : Fin 1000000000
  loc : Location
deriving DecidableEq

/-! Go `time.Duration` is a signed 64-bit count of nanoseconds; it is embedded as an `Int`
kept between `minDuration` and `maxDuration`. -/

/-- Go `maxDuration = 1<<63 - 1`. -/
def maxDuration : Int := 9223372036854775807

/-- Go `minDuration = -1 << 63`. -/
def minDuration : Int := -9223372036854775808

/-- The zero value `time.Time{}`: January 1, year 1, 00:00:00.000000000 UTC. -/
def Time.zero : Time := ⟨0, 0, Location.UTC⟩

/-- The instant of `t` as one number: nanoseconds since January 1, year 1 00:00:00 UTC.
Not a Go method (the number does not fit 64 bits); used to state what the methods compute. -/
def Time.nanos (t : Time) : Int := t.sec * 1000000000 + (t.nsec.val : Int)

/-- Go `t.After(u)`: `ts > us || ts == us && t.nsec() > u.nsec()`. -/
def Time.After (t u : Time) : Bool :=
  decide (t.sec > u.sec) || (decide (t.sec = u.sec) && decide (t.nsec > u.nsec))

/-- Go `t.Before(u)`: `ts < us || ts == us && t.nsec() < u.nsec()`. -/
def Time.Before (t u : Time) : Bool :=
  decide (t.sec < u.sec) || (decide (t.sec = u.sec) && decide (t.nsec < u.nsec))

/-- Go `t.Equal(u)`: the same instant, whatever the locations. -/
def Time.Equal (t u : Time) : Bool :=
  decide (t.sec = u.sec) && decide (t.nsec = u.nsec)

/-- Go `t.IsZero()`: `t.sec() == 0 && t.nsec() == 0`. -/
def Time.IsZero (t : Time) : Bool :=
  decide (t.sec = 0) && decide (t.nsec.val = 0)

/-- Go `t.Local()`: the same instant with the location set to `Local`. -/
def Time.Local (t : Time) : Time := { t with loc := Location.Local }

/-- Go `t.Sub(u)`: the duration `t - u`; when it exceeds the largest (smallest) value a
`Duration` can hold, the largest (smallest) duration is returned. -/
def Time.Sub (t u : Time) : Int :=
  let d := t.nanos - u.nanos
  if d > maxDuration then maxDuration
  else if d < minDuration then minDuration
  else d

/-- The instant `k` whole seconds after `t`, in the location of `t` (Go
`t.Add(k * time.Second)`; adding whole seconds leaves `t.nsec()` as it is). -/
def Time.addSeconds (t : Time) (k : Int) : Time := { t with sec := t.sec + k }

/-! ## `Now` -/

/-- The local type `pair` of `Now`; `diff` is a `time.Duration`. -/
structure pair where
  tm0 : Time
  tm1 : Time
  diff : Int
deriving DecidableEq

/-- The body of the inner loop of `Now` for `res[i] = a`, `res[j] = b`:
`tm0, tm1 := res[i], res[j]; if tm0.After(tm1) { swap }; pair{tm0, tm1, tm1.Sub(tm0)}`. -/
def mkPair (a b : Time) : pair :=
  if a.After b then ⟨b, a, a.Sub b⟩ else ⟨a, b, b.Sub a⟩

/-- The value of `list` after the two nested loops
`for i := 0; i < len(res); i++ { for j := i + 1; j < len(res); j++ { ... append ... } }`:
for each `i` in turn the pairs of `res[i]` with every later `res[j]`, in the order of `j`
(the test `i != j` always holds as `j` starts at `i + 1`). -/
def pairList : List Time → List pair
  | [] => []
  | a :: rest => rest.map (mkPair a) ++ pairList rest

/-- The `less` function handed to `sort.Slice`, on the elements `list[i]`, `list[j]`. -/
def less (a b : pair) : Bool :=
  if a.diff < b.diff then true
  else if a.diff > b.diff then false
  else a.tm0.Before b.tm0

/-- What `sort.Slice` asks of its `less` argument: a strict weak ordering. -/
structure StrictWeakOrder (lt : pair → pair → Bool) : Prop where
  irrefl : ∀ a, lt a a = false
  trans : ∀ a b c, lt a b = true → lt b c = true → lt a c = true
  incomp_trans : ∀ a b c, lt a b = false → lt b a = false → lt b c = false → lt c b = false →
    lt a c = false ∧ lt c a = false

/-- The contract of Go `sort.Slice`, whose algorithm is not stable and is not part of this
repository: given a strict weak ordering the slice ends up a rearrangement of its elements in
which no element is `less` than one standing before it.  `Now` is embedded over any function
`sortSlice` for the call; the theorems assume this contract only. -/
def SortSliceContract (sortSlice : (pair → pair → Bool) → List pair → List pair) : Prop :=
  ∀ lt l, StrictWeakOrder lt →
    (sortSlice lt l).Perm l ∧ (sortSlice lt l).Pairwise (fun a b => lt b a = false)

/-- One function that meets the contract of `sort.Slice`: insertion sort. -/
def insertionSortSlice (lt : pair → pair → Bool) (l : List pair) : List pair :=
  l.insertionSort (fun a b => lt b a = false)

/-- The candidate estimate of `Now`, lines 78 to 99: build `list`, sort it, and take
`list[0].tm0.Local()`.  `none` stands for the index-out-of-range panic on an empty `list`. -/
def candidate (sortSlice : (pair → pair → Bool) → List pair → List pair)
    (res : List Time) : Option Time :=
  match sortSlice less (pairList res) with
  | [] => none
  | p :: _ => some p.tm0.Local

/-- What the calling goroutine sees under `mu` at the top of one iteration of the wait
loop: the results collected so far and the flag set by the timeout goroutine. -/
structure Obs where
  res : List Time
  timedout : Bool
deriving DecidableEq

/-- How a call of `Now` ends. -/
inductive Outcome where
  /-- Line 106, `return rtime`: the value returned and `rtime` after the call. -/
  | quorum (value : Time) (rtime : Time) : Outcome
  /-- Line 109, `return time.Time{}`: the value returned and `rtime` after the call. -/
  | timeout (value : Time) (rtime : Time) : Outcome
  /-- Line 111, `cond.Wait()` with no wake-up left to see. -/
  | blocked : Outcome
  /-- Line 99, `list[0]` on an empty `list`. -/
  | panicked : Outcome
deriving DecidableEq

/-- The value a call hands to its caller, when it returns. -/
def Outcome.value? : Outcome → Option Time
  | .quorum v _ => some v
  | .timeout v _ => some v
  | .blocked => none
  | .panicked => none

/-- The variable `rtime` after a call that returned. -/
def Outcome.rtime? : Outcome → Option Time
  | .quorum _ r => some r
  | .timeout _ r => some r
  | .blocked => none
  | .panicked => none

/-- The function `Now`, lines 66 to 112, from the value of the package variable `rtime` on
entry and the states seen by the wait loop, first to last. -/
def Now (sortSlice : (pair → pair → Bool) → List pair → List pair) (rtime : Time) :
    List Obs → Outcome
  | [] => Outcome.blocked
  | o :: wakes =>
    if 3 ≤ o.res.length then
      match candidate sortSlice o.res with
      | none => Outcome.panicked
      | some res =>
        let rtime1 := if res.After rtime then res else rtime
        Outcome.quorum rtime1 rtime1
    else if o.timedout then Outcome.timeout Time.zero rtime
    else Now sortSlice rtime wakes

/-- A sequence of calls of `Now` in one process, one after the other, from the value
`rtime` of the package variable: the outcomes in call order.  A call that does not return
ends the sequence. -/
def runCalls (sortSlice : (pair → pair → Bool) → List pair → List pair) :
    Time → List (List Obs) → List Outcome
  | _, [] => []
  | rtime, c :: cs =>
    match Now sortSlice rtime c with
    | Outcome.quorum v r => Outcome.quorum v r :: runCalls sortSlice r cs
    | Outcome.timeout v r => Outcome.timeout v r :: runCalls sortSlice r cs
    | o => [o]

/-- The values `rtime` can hold: the zero time at process start, and whatever a returning
call of `Now` leaves. -/
inductive Reachable (sortSlice : (pair → pair → Bool) → List pair → List pair) : Time → Prop where
  | init : Reachable sortSlice Time.zero
  | call (rtime rtime1 : Time) (c : List Obs) (o : Outcome) :
      Reachable sortSlice rtime → Now sortSlice rtime c = o → o.rtime? = some rtime1 →
      Reachable sortSlice rtime1

/-! ## The selection rule in the words of the specification -/

/-- The absolute time difference between two results, in nanoseconds, exact. -/
def absDiff (a b : Time) : Int := |a.nanos - b.nanos|

/-- The chronologically earlier member of a pair of results. -/
def earlierOf (ab : Time × Time) : Time := if ab.2.Before ab.1 then ab.2 else ab.1

/-- All unordered pairs of distinct positions of the list of results, each once. -/
def positionPairs (res : List Time) : List (Time × Time) :=
  (List.finRange res.length).flatMap fun i =>
    ((List.finRange res.length).filter fun j => i < j).map fun j => (res[i], res[j])

/-- The pairs whose absolute time difference is the smallest. -/
def closestPairs (res : List Time) : List (Time × Time) :=
  (positionPairs res).filter fun ab =>
    decide (∀ cd ∈ positionPairs res, absDiff ab.1 ab.2 ≤ absDiff cd.1 cd.2)

/-- Among the closest pairs, those whose earlier member is chronologically earliest; the
reference candidate is the earlier member of such a pair. -/
def referenceCandidates (res : List Time) : List Time :=
  ((closestPairs res).filter fun ab =>
    decide (∀ cd ∈ closestPairs res, (earlierOf cd).Before (earlierOf ab) = false)).map earlierOf

/-! ## Concrete inputs used in the examples -/

/-- The instant of `Sat, 01 Jan 2000 00:00:00 UTC` as `time.Parse` returns it. -/
def y2000 : Time := ⟨63082281600, 0, Location.UTC⟩

/-- The instant of `Sat, 01 Jan 2000 00:00:01 GMT`, in a fabricated zone `GMT`. -/
def y2000s1 : Time := ⟨63082281601, 0, Location.FixedZone "GMT" 0⟩

/-- The instant of `Sat, 01 Jan 2000 00:00:10 UTC`. -/
def y2000s10 : Time := ⟨63082281610, 0, Location.UTC⟩

/-- The instant of `Mon, 01 Jan 0001 00:00:00 UTC`; as a `Time` it is the zero value. -/
def year1 : Time := ⟨0, 0, Location.UTC⟩

/-- The instant of `Wed, 01 Jan 1000 00:00:00 UTC`. -/
def y1000 : Time := ⟨31525372800, 0, Location.UTC⟩

/-- The instant of `Wed, 01 Jan 1400 00:00:00 UTC`. -/
def y1400 : Time := ⟨44148153600, 0, Location.UTC⟩

/-- The instant of `Fri, 01 Jan 1700 00:00:00 UTC`. -/
def y1700 : Time := ⟨53615260800, 0, Location.UTC⟩

/-! ## Instants and their order -/

theorem Time.before_iff (t u : Time) : t.Before u = true ↔ t.nanos < u.nanos := by
  have ht := t.nsec.isLt
  have hu := u.nsec.isLt
  simp only [Time.Before, Time.nanos, Bool.or_eq_true, Bool.and_eq_true, decide_eq_true_eq,
    Fin.lt_def]
  omega

theorem Time.before_false_iff (t u : Time) : t.Before u = false ↔ u.nanos ≤ t.nanos := by
  rw [← Bool.not_eq_true, Time.before_iff]
  omega

theorem Time.after_iff (t u : Time) : t.After u = true ↔ u.nanos < t.nanos := by
  have ht := t.nsec.isLt
  have hu := u.nsec.isLt
  simp only [Time.After, Time.nanos, Bool.or_eq_true, Bool.and_eq_true, decide_eq_true_eq,
    Fin.lt_def, gt_iff_lt]
  omega

theorem Time.after_false_iff (t u : Time) : t.After u = false ↔ t.nanos ≤ u.nanos := by
  rw [← Bool.not_eq_true, Time.after_iff]
  omega

theorem Time.equal_iff (t u : Time) : t.Equal u = true ↔ t.nanos = u.nanos := by
  have ht := t.nsec.isLt
  have hu := u.nsec.isLt
  simp only [Time.Equal, Time.nanos, Bool.and_eq_true, decide_eq_true_eq, Fin.ext_iff]
  omega

theorem Time.isZero_iff (t : Time) : t.IsZero = true ↔ t.nanos = 0 := by
  have ht := t.nsec.isLt
  simp only [Time.IsZero, Time.nanos, Bool.and_eq_true, decide_eq_true_eq]
  omega

theorem Time.nanos_local (t : Time) : t.Local.nanos = t.nanos := rfl

theorem Time.nanos_zero : Time.zero.nanos = 0 := by decide

theorem Time.nanos_addSeconds (t : Time) (k : Int) :
    (t.addSeconds k).nanos = t.nanos + k * 1000000000 := by
  simp only [Time.addSeconds, Time.nanos]
  omega

/-- Two times at the same instant differ in their location at most. -/
theorem Time.local_eq_of_nanos_eq (t u : Time) (h : t.nanos = u.nanos) : t.Local = u.Local := by
  have ht := t.nsec.isLt
  have hu := u.nsec.isLt
  have h1 : t.sec = u.sec := by
    simp only [Time.nanos] at h
    omega
  have h2 : t.nsec = u.nsec := by
    apply Fin.ext
    simp only [Time.nanos] at h
    omega
  simp only [Time.Local, h1, h2]

/-- The duration recorded by `Sub` for a later and an earlier instant: the exact count of
nanoseconds, cut off at `maxDuration`. -/
theorem Time.sub_of_le (t u : Time) (h : u.nanos ≤ t.nanos) :
    t.Sub u = min (t.nanos - u.nanos) maxDuration := by
  simp only [Time.Sub, maxDuration, minDuration]
  split_ifs <;> omega

/-! ## The pairs and their order -/

theorem mkPair_tm0_nanos (a b : Time) : (mkPair a b).tm0.nanos = min a.nanos b.nanos := by
  unfold mkPair
  by_cases h : a.After b = true
  · rw [if_pos h]
    rw [Time.after_iff] at h
    simp only []
    omega
  · rw [if_neg h]
    rw [Bool.not_eq_true, Time.after_false_iff] at h
    simp only []
    omega

theorem mkPair_tm1_nanos (a b : Time) : (mkPair a b).tm1.nanos = max a.nanos b.nanos := by
  unfold mkPair
  by_cases h : a.After b = true
  · rw [if_pos h]
    rw [Time.after_iff] at h
    simp only []
    omega
  · rw [if_neg h]
    rw [Bool.not_eq_true, Time.after_false_iff] at h
    simp only []
    omega

theorem mkPair_diff (a b : Time) :
    (mkPair a b).diff = min (|a.nanos - b.nanos|) maxDuration := by
  unfold mkPair
  by_cases h : a.After b = true
  · rw [if_pos h]
    rw [Time.after_iff] at h
    simp only []
    rw [Time.sub_of_le _ _ (le_of_lt h), abs_of_nonneg (by omega)]
  · rw [if_neg h]
    rw [Bool.not_eq_true, Time.after_false_iff] at h
    simp only []
    rw [Time.sub_of_le _ _ h, abs_sub_comm, abs_of_nonneg (by omega)]

theorem mkPair_diff_comm (a b : Time) : (mkPair a b).diff = (mkPair b a).diff := by
  rw [mkPair_diff, mkPair_diff, abs_sub_comm]

theorem mkPair_tm0_comm (a b : Time) : (mkPair a b).tm0.nanos = (mkPair b a).tm0.nanos := by
  rw [mkPair_tm0_nanos, mkPair_tm0_nanos, min_comm]

theorem less_iff (p q : pair) :
    less p q = true ↔ p.diff < q.diff ∨ (p.diff = q.diff ∧ p.tm0.nanos < q.tm0.nanos) := by
  unfold less
  split_ifs with h1 h2
  · simp only [true_iff]
    omega
  · simp only [Bool.false_eq_true, false_iff]
    omega
  · rw [Time.before_iff]
    omega

theorem less_false_iff (p q : pair) :
    less p q = false ↔ q.diff < p.diff ∨ (q.diff = p.diff ∧ q.tm0.nanos ≤ p.tm0.nanos) := by
  rw [← Bool.not_eq_true, less_iff]
  omega

/-- The `less` of `Now` is a strict weak ordering, as `sort.Slice` requires. -/
theorem less_strictWeakOrder : StrictWeakOrder less where
  irrefl := by
    intro a
    rw [less_false_iff]
    omega
  trans := by
    intro a b c
    rw [less_iff, less_iff, less_iff]
    omega
  incomp_trans := by
    intro a b c
    rw [less_false_iff, less_false_iff, less_false_iff, less_false_iff, less_false_iff,
      less_false_iff]
    omega

/-- A property holds of every element of `list` exactly when it holds of the pair built
for every two positions `i < j` of `res`. -/
theorem forall_mem_pairList (P : pair → Prop) (res : List Time) :
    (∀ p ∈ pairList res, P p) ↔ res.Pairwise (fun a b => P (mkPair a b)) := by
  induction res with
  | nil => simp [pairList]
  | cons a rest ih =>
    simp only [pairList, List.mem_append, List.mem_map, List.pairwise_cons]
    rw [← ih]
    constructor
    · intro h
      exact ⟨fun b hb => h _ (Or.inl ⟨b, hb, rfl⟩), fun p hp => h p (Or.inr hp)⟩
    · rintro ⟨h1, h2⟩ p (⟨b, hb, rfl⟩ | hp)
      · exact h1 b hb
      · exact h2 p hp

/-- The elements of `list` are the pairs built for the positions `i < j` of `res`. -/
theorem mem_pairList_iff (p : pair) (res : List Time) :
    p ∈ pairList res ↔
      ∃ (i j : Nat) (hi : i < res.length) (hj : j < res.length), i < j ∧ p = mkPair res[i] res[j] := by
  constructor
  · intro hp
    by_contra hne
    have hall : res.Pairwise (fun a b => mkPair a b ≠ p) := by
      rw [List.pairwise_iff_getElem]
      intro i j hi hj hij heq
      exact hne ⟨i, j, hi, hj, hij, heq.symm⟩
    exact (forall_mem_pairList (fun q => q ≠ p) res).2 hall p hp rfl
  · rintro ⟨i, j, hi, hj, hij, rfl⟩
    by_contra hne
    have hall : ∀ q ∈ pairList res, q ∈ pairList res := fun q hq => hq
    rw [forall_mem_pairList (fun q => q ∈ pairList res) res, List.pairwise_iff_getElem] at hall
    exact hne (hall i j hi hj hij)

theorem pairList_ne_nil (res : List Time) (h : 2 ≤ res.length) : pairList res ≠ [] := by
  match res, h with
  | a :: b :: rest, _ => simp [pairList]

/-- After `sort.Slice`, `list[0]` exists, is one of the pairs, and no pair is `less`. -/
theorem sortSlice_head (sortSlice : (pair → pair → Bool) → List pair → List pair)
    (hs : SortSliceContract sortSlice) (l : List pair) (hl : l ≠ []) :
    ∃ p rest, sortSlice less l = p :: rest ∧ p ∈ l ∧ ∀ q ∈ l, less q p = false := by
  obtain ⟨hperm, hsorted⟩ := hs less l less_strictWeakOrder
  cases h : sortSlice less l with
  | nil =>
    rw [h] at hperm
    exact absurd (List.Perm.nil_eq hperm).symm hl
  | cons p rest =>
    rw [h] at hperm hsorted
    refine ⟨p, rest, rfl, hperm.subset (List.mem_cons_self p rest), ?_⟩
    intro q hq
    have hq1 : q ∈ p :: rest := hperm.symm.subset hq
    rcases List.mem_cons.1 hq1 with rfl | hq2
    · exact less_strictWeakOrder.irrefl q
    · exact (List.pairwise_cons.1 hsorted).1 q hq2

/-- With two results or more the candidate exists: it is `tm0.Local()` of a pair of `list`
than which no pair of `list` is `less`. -/
theorem candidate_spec (sortSlice : (pair → pair → Bool) → List pair → List pair)
    (hs : SortSliceContract sortSlice) (res : List Time) (h : 2 ≤ res.length) :
    ∃ p, candidate sortSlice res = some p.tm0.Local ∧ p ∈ pairList res ∧
      ∀ q ∈ pairList res, less q p = false := by
  obtain ⟨p, rest, h1, h2, h3⟩ := sortSlice_head sortSlice hs (pairList res) (pairList_ne_nil res h)
  exact ⟨p, by simp only [candidate, h1], h2, h3⟩

/-- Insertion sort meets the contract of `sort.Slice`. -/
theorem insertionSortSlice_contract : SortSliceContract insertionSortSlice := by
  intro lt l hlt
  have hasym : ∀ a b, lt a b = true → lt b a = false := by
    intro a b hab
    by_contra hba
    rw [Bool.not_eq_false] at hba
    have := hlt.trans a b a hab hba
    rw [hlt.irrefl a] at this
    exact Bool.false_ne_true this
  have htotal : IsTotal pair (fun a b => lt b a = false) := by
    refine ⟨fun a b => ?_⟩
    cases hba : lt b a
    · exact Or.inl rfl
    · exact Or.inr (hasym b a hba)
  have htrans : IsTrans pair (fun a b => lt b a = false) := by
    refine ⟨fun a b c hab hbc => ?_⟩
    show lt c a = false
    by_contra hca
    rw [Bool.not_eq_false] at hca
    have h1 : lt a b = false := by
      by_contra hx
      rw [Bool.not_eq_false] at hx
      have := hlt.trans c a b hca hx
      rw [hbc] at this
      exact Bool.false_ne_true this
    have h2 : lt b c = false := by
      by_contra hx
      rw [Bool.not_eq_false] at hx
      have := hlt.trans b c a hx hca
      rw [hab] at this
      exact Bool.false_ne_true this
    have := (hlt.incomp_trans a b c h1 hab h2 hbc).2
    rw [hca] at this
    exact Bool.false_ne_true this.symm
  exact ⟨List.perm_insertionSort _ l, List.sorted_insertionSort _ l⟩

/-! ## The wait loop and the clamp -/

theorem Now_cons_quorum (sortSlice : (pair → pair → Bool) → List pair → List pair)
    (rtime : Time) (o : Obs) (wakes : List Obs) (c : Time) (h : 3 ≤ o.res.length)
    (hc : candidate sortSlice o.res = some c) :
    Now sortSlice rtime (o :: wakes) =
      Outcome.quorum (if c.After rtime then c else rtime) (if c.After rtime then c else rtime) := by
  simp only [Now, h, if_true, hc]

/-- States with fewer than three results and no timeout are waited through. -/
theorem Now_append_waiting (sortSlice : (pair → pair → Bool) → List pair → List pair)
    (rtime : Time) (waits rest : List Obs)
    (hw : ∀ o ∈ waits, o.res.length < 3 ∧ o.timedout = false) :
    Now sortSlice rtime (waits ++ rest) = Now sortSlice rtime rest := by
  induction waits with
  | nil => rfl
  | cons o os ih =>
    have ho := hw o (List.mem_cons_self o os)
    have hlen : ¬ 3 ≤ o.res.length := by omega
    simp only [List.cons_append, Now, hlen, if_false, ho.2, Bool.false_eq_true]
    exact ih (fun x hx => hw x (List.mem_cons_of_mem o hx))

/-- A call that returns at line 106 returns `rtime` as it leaves it, not earlier than it
found it. -/
theorem Now_quorum_inv (sortSlice : (pair → pair → Bool) → List pair → List pair)
    (rtime : Time) (c : List Obs) (v r : Time) (h : Now sortSlice rtime c = Outcome.quorum v r) :
    r = v ∧ rtime.nanos ≤ v.nanos := by
  induction c with
  | nil => simp [Now] at h
  | cons o os ih =>
    simp only [Now] at h
    split_ifs at h with h1 h2
    · split at h
      · simp at h
      · rename_i res hres
        simp only [Outcome.quorum.injEq] at h
        obtain ⟨hv, hr⟩ := h
        refine ⟨by rw [← hv, ← hr], ?_⟩
        rw [← hv]
        by_cases ha : res.After rtime = true
        · rw [if_pos ha]
          rw [Time.after_iff] at ha
          omega
        · rw [if_neg ha]
    · exact ih h

/-- A call that returns at line 109 returns the zero time and leaves `rtime` alone. -/
theorem Now_timeout_inv (sortSlice : (pair → pair → Bool) → List pair → List pair)
    (rtime : Time) (c : List Obs) (v r : Time) (h : Now sortSlice rtime c = Outcome.timeout v r) :
    v = Time.zero ∧ r = rtime := by
  induction c with
  | nil => simp [Now] at h
  | cons o os ih =>
    simp only [Now] at h
    split_ifs at h with h1 h2
    · split at h <;> simp at h
    · simp only [Outcome.timeout.injEq] at h
      exact ⟨h.1.symm, h.2.symm⟩
    · exact ih h

/-! ## Sequences of calls -/

/-- A call of a sequence that returns at line 106 returns a value not earlier than the
`rtime` the sequence started from. -/
theorem runCalls_quorum_ge_start (sortSlice : (pair → pair → Bool) → List pair → List pair)
    (calls : List (List Obs)) :
    ∀ (rtime : Time) (j : Nat) (v r : Time),
      (runCalls sortSlice rtime calls)[j]? = some (Outcome.quorum v r) → rtime.nanos ≤ v.nanos := by
  induction calls with
  | nil =>
    intro rtime j v r h
    simp [runCalls] at h
  | cons c cs ih =>
    intro rtime j v r h
    cases hN : Now sortSlice rtime c with
    | quorum v0 r0 =>
      have hinv := Now_quorum_inv sortSlice rtime c v0 r0 hN
      simp only [runCalls, hN] at h
      cases j with
      | zero =>
        simp only [List.getElem?_cons_zero, Option.some.injEq, Outcome.quorum.injEq] at h
        rw [← h.1]
        exact hinv.2
      | succ j1 =>
        simp only [List.getElem?_cons_succ] at h
        have := ih r0 j1 v r h
        rw [hinv.1] at this
        omega
    | timeout v0 r0 =>
      have hinv := Now_timeout_inv sortSlice rtime c v0 r0 hN
      simp only [runCalls, hN] at h
      cases j with
      | zero => simp at h
      | succ j1 =>
        simp only [List.getElem?_cons_succ] at h
        have := ih r0 j1 v r h
        rw [hinv.2] at this
        exact this
    | blocked =>
      simp only [runCalls, hN] at h
      cases j with
      | zero => simp at h
      | succ j1 => simp at h
    | panicked =>
      simp only [runCalls, hN] at h
      cases j with
      | zero => simp at h
      | succ j1 => simp at h

/-- Of two calls of a sequence that return at line 106, the later returns the later or
the same instant. -/
theorem runCalls_quorum_mono (sortSlice : (pair → pair → Bool) → List pair → List pair)
    (calls : List (List Obs)) :
    ∀ (rtime : Time) (i j : Nat) (vi ri vj rj : Time), i < j →
      (runCalls sortSlice rtime calls)[i]? = some (Outcome.quorum vi ri) →
      (runCalls sortSlice rtime calls)[j]? = some (Outcome.quorum vj rj) →
      vi.nanos ≤ vj.nanos := by
  induction calls with
  | nil =>
    intro rtime i j vi ri vj rj _ h
    simp [runCalls] at h
  | cons c cs ih =>
    intro rtime i j vi ri vj rj hij hi hj
    obtain ⟨j1, rfl⟩ : ∃ j1, j = j1 + 1 := ⟨j - 1, by omega⟩
    cases hN : Now sortSlice rtime c with
    | quorum v0 r0 =>
      have hinv := Now_quorum_inv sortSlice rtime c v0 r0 hN
      simp only [runCalls, hN] at hi hj
      simp only [List.getElem?_cons_succ] at hj
      cases i with
      | zero =>
        simp only [List.getElem?_cons_zero, Option.some.injEq, Outcome.quorum.injEq] at hi
        have := runCalls_quorum_ge_start sortSlice cs r0 j1 vj rj hj
        rw [hinv.1, hi.1] at this
        exact this
      | succ i1 =>
        simp only [List.getElem?_cons_succ] at hi
        exact ih r0 i1 j1 vi ri vj rj (by omega) hi hj
    | timeout v0 r0 =>
      simp only [runCalls, hN] at hi hj
      simp only [List.getElem?_cons_succ] at hj
      cases i with
      | zero => simp at hi
      | succ i1 =>
        simp only [List.getElem?_cons_succ] at hi
        exact ih r0 i1 j1 vi ri vj rj (by omega) hi hj
    | blocked =>
      simp only [runCalls, hN] at hj
      simp at hj
    | panicked =>
      simp only [runCalls, hN] at hj
      simp at hj

/-- A call of a sequence that returns at line 109 returns the zero time. -/
theorem runCalls_timeout_value (sortSlice : (pair → pair → Bool) → List pair → List pair)
    (calls : List (List Obs)) :
    ∀ (rtime : Time) (i : Nat) (v r : Time),
      (runCalls sortSlice rtime calls)[i]? = some (Outcome.timeout v r) → v = Time.zero := by
  induction calls with
  | nil =>
    intro rtime i v r h
    simp [runCalls] at h
  | cons c cs ih =>
    intro rtime i v r h
    cases hN : Now sortSlice rtime c with
    | quorum v0 r0 =>
      simp only [runCalls, hN] at h
      cases i with
      | zero => simp at h
      | succ i1 =>
        simp only [List.getElem?_cons_succ] at h
        exact ih r0 i1 v r h
    | timeout v0 r0 =>
      have hinv := Now_timeout_inv sortSlice rtime c v0 r0 hN
      simp only [runCalls, hN] at h
      cases i with
      | zero =>
        simp only [List.getElem?_cons_zero, Option.some.injEq, Outcome.timeout.injEq] at h
        rw [← h.1]
        exact hinv.1
      | succ i1 =>
        simp only [List.getElem?_cons_succ] at h
        exact ih r0 i1 v r h
    | blocked =>
      simp only [runCalls, hN] at h
      cases i with
      | zero => simp at h
      | succ i1 => simp at h
    | panicked =>
      simp only [runCalls, hN] at h
      cases i with
      | zero => simp at h
      | succ i1 => simp at h

/-- The variable `rtime` never holds an instant before the zero time. -/
theorem Reachable.nanos_nonneg (sortSlice : (pair → pair → Bool) → List pair → List pair)
    (rtime : Time) (h : Reachable sortSlice rtime) : 0 ≤ rtime.nanos := by
  induction h with
  | init => exact le_of_eq Time.nanos_zero.symm
  | call rt rt1 c o _ hN ho ih =>
    cases o with
    | quorum v r =>
      have hinv := Now_quorum_inv sortSlice rt c v r hN
      simp only [Outcome.rtime?, Option.some.injEq] at ho
      rw [← ho, hinv.1]
      omega
    | timeout v r =>
      have hinv := Now_timeout_inv sortSlice rt c v r hN
      simp only [Outcome.rtime?, Option.some.injEq] at ho
      rw [← ho, hinv.2]
      exact ih
    | blocked => simp [Outcome.rtime?] at ho
    | panicked => simp [Outcome.rtime?] at ho

/-- A call that returns at line 109 saw, after states it waited through, a state with
fewer than three results and the flag `timedout` set. -/
theorem Now_timeout_decomp (sortSlice : (pair → pair → Bool) → List pair → List pair)
    (rtime : Time) (obs : List Obs) (v r : Time)
    (h : Now sortSlice rtime obs = Outcome.timeout v r) :
    ∃ waits o rest, obs = waits ++ o :: rest ∧
      (∀ w ∈ waits, w.res.length < 3 ∧ w.timedout = false) ∧
      o.res.length < 3 ∧ o.timedout = true := by
  induction obs with
  | nil => simp [Now] at h
  | cons o os ih =>
    simp only [Now] at h
    split_ifs at h with h1 h2
    · split at h <;> simp at h
    · exact ⟨[], o, os, rfl, by simp, by omega, h2⟩
    · obtain ⟨waits, o1, rest, h3, h4, h5, h6⟩ := ih h
      refine ⟨o :: waits, o1, rest, by rw [h3]; rfl, ?_, h5, h6⟩
      intro w hw
      rcases List.mem_cons.1 hw with rfl | hw1
      · exact ⟨by omega, by simpa using h2⟩
      · exact h4 w hw1

/-! ## Monotonicity over calls -/

/-- C1: in any sequence of calls of `Now` in one process, started from any value of `rtime`
(the zero time at process start included) and with any results seen by the wait loops, when
the calls numbered `i < j` both return from the quorum branch the value returned by call `j`
is not before the value returned by call `i`. -/
theorem now_quorum_calls_monotone (sortSlice : (pair → pair → Bool) → List pair → List pair)
    (rtime : Time) (calls : List (List Obs)) (i j : Nat) (vi ri vj rj : Time) (hij : i < j)
    (hi : (runCalls sortSlice rtime calls)[i]? = some (Outcome.quorum vi ri))
    (hj : (runCalls sortSlice rtime calls)[j]? = some (Outcome.quorum vj rj)) :
    vj.Before vi = false := by
  rw [Time.before_false_iff]
  exact runCalls_quorum_mono sortSlice calls rtime i j vi ri vj rj hij hi hj

/-- C1, an instance: a call that sees the results out of order, a call that fails, and a call
whose three results are all older than the first estimate. -/
theorem now_quorum_calls_monotone_witness :
    (runCalls insertionSortSlice Time.zero
        [[⟨[y2000s10, y2000s1], false⟩, ⟨[y2000s10, y2000s1, y2000], false⟩], [⟨[], true⟩],
          [⟨[year1, year1, y2000], true⟩]])[2]? =
      some (Outcome.quorum y2000.Local y2000.Local) ∧
    y2000.Local.Before y2000.Local = false :=
  ⟨by decide,
    now_quorum_calls_monotone insertionSortSlice Time.zero
      [[⟨[y2000s10, y2000s1], false⟩, ⟨[y2000s10, y2000s1, y2000], false⟩], [⟨[], true⟩],
        [⟨[year1, year1, y2000], true⟩]]
      0 2 y2000.Local y2000.Local y2000.Local y2000.Local (by decide) (by decide) (by decide)⟩

/-- C9 as stated fails: a call that returns an estimate followed by a call that fails on
quorum; the second call returns the zero time, which is before the value returned first. -/
theorem now_failure_after_success_regresses :
    runCalls insertionSortSlice Time.zero
        [[⟨[y2000, y2000s1, y2000s10], false⟩], [⟨[y2000, y2000s1], true⟩]] =
      [Outcome.quorum y2000.Local y2000.Local, Outcome.timeout Time.zero y2000.Local] ∧
    Time.zero.Before y2000.Local = true := by
  decide

/-- C9, amended: in any sequence of calls of `Now` in one process, started from the zero
time, the value returned by a call that returns from the quorum branch is not before the
value returned by any earlier call, whether that earlier call succeeded or failed. -/
theorem now_quorum_value_not_before_earlier (sortSlice : (pair → pair → Bool) → List pair → List pair)
    (calls : List (List Obs)) (i j : Nat) (oi : Outcome) (vi vj rj : Time) (hij : i < j)
    (hi : (runCalls sortSlice Time.zero calls)[i]? = some oi)
    (hvi : oi.value? = some vi)
    (hj : (runCalls sortSlice Time.zero calls)[j]? = some (Outcome.quorum vj rj)) :
    vj.Before vi = false := by
  rw [Time.before_false_iff]
  cases oi with
  | quorum v r =>
    simp only [Outcome.value?, Option.some.injEq] at hvi
    rw [← hvi]
    exact runCalls_quorum_mono sortSlice calls Time.zero i j v r vj rj hij hi hj
  | timeout v r =>
    simp only [Outcome.value?, Option.some.injEq] at hvi
    have hz := runCalls_timeout_value sortSlice calls Time.zero i v r hi
    have hge := runCalls_quorum_ge_start sortSlice calls Time.zero j vj rj hj
    rw [← hvi, hz]
    exact hge
  | blocked => simp [Outcome.value?] at hvi
  | panicked => simp [Outcome.value?] at hvi

/-- C9, an instance of the amended claim: a failed call, then a call that reaches quorum. -/
theorem now_quorum_value_not_before_earlier_witness :
    (Outcome.timeout Time.zero Time.zero).value? = some Time.zero ∧
      y2000.Local.Before Time.zero = false :=
  ⟨by decide,
    now_quorum_value_not_before_earlier insertionSortSlice
      [[⟨[y2000], true⟩], [⟨[y2000, y2000s1, y2000s10], true⟩]]
      0 1 (Outcome.timeout Time.zero Time.zero) Time.zero y2000.Local y2000.Local
      (by decide) (by decide) (by decide) (by decide)⟩

/-! ## Quorum, timeout and the clamp -/

/-- C3: when the wait loop, after any states it waited through, sees fewer than three
results with the flag `timedout` set, `Now` returns the zero time, whatever the partial
results are, and `rtime` is as it was before the call. -/
theorem now_below_quorum_returns_zero (sortSlice : (pair → pair → Bool) → List pair → List pair)
    (rtime : Time) (waits rest : List Obs) (res : List Time)
    (hw : ∀ o ∈ waits, o.res.length < 3 ∧ o.timedout = false) (hres : res.length < 3) :
    Now sortSlice rtime (waits ++ ⟨res, true⟩ :: rest) = Outcome.timeout Time.zero rtime ∧
      Time.zero.IsZero = true := by
  refine ⟨?_, by decide⟩
  rw [Now_append_waiting sortSlice rtime waits _ hw]
  have hlen : ¬ 3 ≤ res.length := by omega
  simp only [Now, hlen, if_false, if_true]

/-- C3, an instance: two results at the deadline, after a first estimate was stored. -/
theorem now_below_quorum_returns_zero_witness :
    Now insertionSortSlice y2000 ([⟨[y2000s1], false⟩] ++ ⟨[y2000s1, y2000s10], true⟩ :: []) =
      Outcome.timeout Time.zero y2000 ∧ Time.zero.IsZero = true :=
  now_below_quorum_returns_zero insertionSortSlice y2000 [⟨[y2000s1], false⟩] []
    [y2000s1, y2000s10] (by decide) (by decide)

/-- C4: with three results or more the selector yields a candidate `c`; when `c` is after
the running estimate `r` the call returns `c` and leaves `rtime = c`, otherwise it returns
`r` and leaves `rtime = r`.  Either way the value returned is `rtime` after the call. -/
theorem now_clamp_step (sortSlice : (pair → pair → Bool) → List pair → List pair)
    (hs : SortSliceContract sortSlice) (r : Time) (res : List Time) (timedout : Bool)
    (wakes : List Obs) (hres : 3 ≤ res.length) :
    ∃ c, candidate sortSlice res = some c ∧
      (c.After r = true → Now sortSlice r (⟨res, timedout⟩ :: wakes) = Outcome.quorum c c) ∧
      (c.After r = false → Now sortSlice r (⟨res, timedout⟩ :: wakes) = Outcome.quorum r r) := by
  obtain ⟨p, hp, -, -⟩ := candidate_spec sortSlice hs res (by omega)
  refine ⟨p.tm0.Local, hp, ?_, ?_⟩
  · intro hc
    rw [Now_cons_quorum sortSlice r ⟨res, timedout⟩ wakes p.tm0.Local hres hp, if_pos hc]
  · intro hc
    rw [Now_cons_quorum sortSlice r ⟨res, timedout⟩ wakes p.tm0.Local hres hp,
      if_neg (by rw [hc]; exact Bool.false_ne_true)]

/-- C4, an instance: the candidate `y2000` against the running estimate ten seconds later. -/
theorem now_clamp_step_witness :
    ∃ c, candidate insertionSortSlice [y2000, y2000s1, y2000s10] = some c ∧
      (c.After y2000s10 = true →
        Now insertionSortSlice y2000s10 (⟨[y2000, y2000s1, y2000s10], false⟩ :: []) =
          Outcome.quorum c c) ∧
      (c.After y2000s10 = false →
        Now insertionSortSlice y2000s10 (⟨[y2000, y2000s1, y2000s10], false⟩ :: []) =
          Outcome.quorum y2000s10 y2000s10) :=
  now_clamp_step insertionSortSlice insertionSortSlice_contract y2000s10
    [y2000, y2000s1, y2000s10] false [] (by decide)

/-- C7: a state of the wait loop with three results or more makes `Now` return the selected
and clamped estimate, whether or not `timedout` is set in that state; and a call that returns
from the timeout branch saw a state with fewer than three results and `timedout` set, and
returns the zero time. -/
theorem now_quorum_wins_timeout_race (sortSlice : (pair → pair → Bool) → List pair → List pair)
    (hs : SortSliceContract sortSlice) (rtime : Time) (waits rest : List Obs) (o : Obs)
    (hw : ∀ w ∈ waits, w.res.length < 3 ∧ w.timedout = false) (ho : 3 ≤ o.res.length) :
    (∃ c, candidate sortSlice o.res = some c ∧
      Now sortSlice rtime (waits ++ o :: rest) =
        Outcome.quorum (if c.After rtime then c else rtime) (if c.After rtime then c else rtime)) ∧
    (∀ (obs : List Obs) (v r : Time), Now sortSlice rtime obs = Outcome.timeout v r →
      v = Time.zero ∧ r = rtime ∧
      ∃ ws o1 rs, obs = ws ++ o1 :: rs ∧ (∀ w ∈ ws, w.res.length < 3 ∧ w.timedout = false) ∧
        o1.res.length < 3 ∧ o1.timedout = true) := by
  constructor
  · obtain ⟨p, hp, -, -⟩ := candidate_spec sortSlice hs o.res (by omega)
    refine ⟨p.tm0.Local, hp, ?_⟩
    rw [Now_append_waiting sortSlice rtime waits _ hw]
    exact Now_cons_quorum sortSlice rtime o rest p.tm0.Local ho hp
  · intro obs v r h
    have h1 := Now_timeout_inv sortSlice rtime obs v r h
    exact ⟨h1.1, h1.2, Now_timeout_decomp sortSlice rtime obs v r h⟩

/-- C7, an instance: the third result and the timeout are seen at the same wake-up. -/
theorem now_quorum_wins_timeout_race_witness :
    ∃ c, candidate insertionSortSlice [y2000s10, y2000, y2000s1] = some c ∧
      Now insertionSortSlice Time.zero
          ([⟨[y2000s10, y2000], false⟩] ++ ⟨[y2000s10, y2000, y2000s1], true⟩ :: []) =
        Outcome.quorum (if c.After Time.zero then c else Time.zero)
          (if c.After Time.zero then c else Time.zero) :=
  (now_quorum_wins_timeout_race insertionSortSlice insertionSortSlice_contract Time.zero
    [⟨[y2000s10, y2000], false⟩] [] ⟨[y2000s10, y2000, y2000s1], true⟩
    (by decide) (by decide)).1

/-! ## The zero time as the mark of failure -/

/-- C5 as stated fails: at process start, three sources that all report
`Mon, 01 Jan 0001 00:00:00 UTC` make quorum, and `Now` returns the zero time. -/
theorem now_quorum_can_return_zero :
    Reachable insertionSortSlice Time.zero ∧ 3 ≤ [year1, year1, year1].length ∧
      Now insertionSortSlice Time.zero [⟨[year1, year1, year1], false⟩] =
        Outcome.quorum Time.zero Time.zero ∧
      Time.zero.IsZero = true :=
  ⟨Reachable.init, by decide, by decide, by decide⟩

/-- C5, amended: for every value of `rtime` reachable from process start and every three or
more results, the value `Now` returns on quorum is the zero time exactly when `rtime` still
is the zero time and the candidate is not after the zero time; so it is not the zero time
whenever the candidate is after the zero time. -/
theorem now_quorum_zero_iff (sortSlice : (pair → pair → Bool) → List pair → List pair)
    (hs : SortSliceContract sortSlice) (rtime : Time) (hr : Reachable sortSlice rtime)
    (res : List Time) (timedout : Bool) (wakes : List Obs) (hres : 3 ≤ res.length) :
    ∃ c v, candidate sortSlice res = some c ∧
      Now sortSlice rtime (⟨res, timedout⟩ :: wakes) = Outcome.quorum v v ∧
      (v.IsZero = true ↔ (rtime.IsZero = true ∧ c.After Time.zero = false)) := by
  obtain ⟨p, hp, -, -⟩ := candidate_spec sortSlice hs res (by omega)
  have hnn := Reachable.nanos_nonneg sortSlice rtime hr
  refine ⟨p.tm0.Local, _, hp,
    Now_cons_quorum sortSlice rtime ⟨res, timedout⟩ wakes p.tm0.Local hres hp, ?_⟩
  have hz := Time.nanos_zero
  by_cases hc : p.tm0.Local.After rtime = true
  · rw [if_pos hc, Time.isZero_iff, Time.isZero_iff, Time.after_false_iff]
    rw [Time.after_iff] at hc
    omega
  · rw [if_neg hc, Time.isZero_iff, Time.after_false_iff]
    rw [Bool.not_eq_true, Time.after_false_iff] at hc
    omega

/-- C5, an instance of the amended claim: three results of the year 2000 at process start. -/
theorem now_quorum_zero_iff_witness :
    ∃ c v, candidate insertionSortSlice [y2000, y2000s1, y2000s10] = some c ∧
      Now insertionSortSlice Time.zero (⟨[y2000, y2000s1, y2000s10], false⟩ :: []) =
        Outcome.quorum v v ∧
      (v.IsZero = true ↔ (Time.zero.IsZero = true ∧ c.After Time.zero = false)) :=
  now_quorum_zero_iff insertionSortSlice insertionSortSlice_contract Time.zero Reachable.init
    [y2000, y2000s1, y2000s10] false [] (by decide)

/-! ## The selection does not depend on the order of arrival -/

theorem less_mkPair_comm (a b : Time) (p : pair) :
    less (mkPair a b) p = false → less (mkPair b a) p = false := by
  rw [less_false_iff, less_false_iff, mkPair_diff_comm a b, mkPair_tm0_comm a b]
  exact id

/-- The candidates of two runs, over two arrival orders of the same results and with any two
behaviours of `sort.Slice`, are the same `Time`. -/
theorem candidate_perm (s1 s2 : (pair → pair → Bool) → List pair → List pair)
    (hs1 : SortSliceContract s1) (hs2 : SortSliceContract s2) (res1 res2 : List Time)
    (hlen : 2 ≤ res1.length) (hperm : res1.Perm res2) :
    candidate s1 res1 = candidate s2 res2 := by
  obtain ⟨p, hp, hpmem, hpmin⟩ := candidate_spec s1 hs1 res1 hlen
  obtain ⟨q, hq, hqmem, hqmin⟩ := candidate_spec s2 hs2 res2 (by rw [← hperm.length_eq]; exact hlen)
  have hqp : less q p = false := by
    have h1 := (forall_mem_pairList (fun x => less x p = false) res1).1 hpmin
    have h2 := (List.Perm.pairwise_iff (fun {a b} h => less_mkPair_comm a b p h) hperm).1 h1
    exact (forall_mem_pairList (fun x => less x p = false) res2).2 h2 q hqmem
  have hpq : less p q = false := by
    have h1 := (forall_mem_pairList (fun x => less x q = false) res2).1 hqmin
    have h2 := (List.Perm.pairwise_iff (fun {a b} h => less_mkPair_comm a b q h) hperm.symm).1 h1
    exact (forall_mem_pairList (fun x => less x q = false) res1).2 h2 p hpmem
  rw [less_false_iff] at hqp hpq
  have heq : p.tm0.nanos = q.tm0.nanos := by omega
  rw [hp, hq, Time.local_eq_of_nanos_eq p.tm0 q.tm0 heq]

/-- C8: for three results or more, any rearrangement of the list of results, and any two
behaviours of the unstable `sort.Slice` in the two runs, the selector yields a candidate in
both runs and it is the same `Time`, hence the same instant. -/
theorem candidate_order_independent (s1 s2 : (pair → pair → Bool) → List pair → List pair)
    (hs1 : SortSliceContract s1) (hs2 : SortSliceContract s2) (res1 res2 : List Time)
    (hlen : 3 ≤ res1.length) (hperm : res2.Perm res1) :
    ∃ c, candidate s1 res1 = some c ∧ candidate s2 res2 = some c := by
  obtain ⟨p, hp, -, -⟩ := candidate_spec s1 hs1 res1 (by omega)
  refine ⟨p.tm0.Local, hp, ?_⟩
  rw [← candidate_perm s1 s2 hs1 hs2 res1 res2 (by omega) hperm.symm, hp]

/-- C8, an instance: four results and one of their rearrangements. -/
theorem candidate_order_independent_witness :
    ∃ c, candidate insertionSortSlice [y2000s10, y1700, y2000s1, y2000] = some c ∧
      candidate insertionSortSlice [y2000, y2000s1, y1700, y2000s10] = some c :=
  candidate_order_independent insertionSortSlice insertionSortSlice insertionSortSlice_contract
    insertionSortSlice_contract [y2000s10, y1700, y2000s1, y2000]
    [y2000, y2000s1, y1700, y2000s10] (by decide) (by decide)

/-! ## Outlier rejection -/

theorem mkPair_of_le (a b : Time) (h : a.nanos ≤ b.nanos) :
    (mkPair a b).tm0.nanos = a.nanos ∧ (mkPair a b).diff = min (b.nanos - a.nanos) maxDuration := by
  rw [mkPair_tm0_nanos, mkPair_diff, abs_sub_comm, abs_of_nonneg (by omega)]
  exact ⟨by omega, rfl⟩

/-- C6: when the results are `T`, an instant one second after `T` and an instant ten seconds
after `T`, in any arrival order, the candidate is `T` (in the local zone), and `Now` returns it
whenever `rtime` before the call is earlier than `T`. -/
theorem now_rejects_outlier (sortSlice : (pair → pair → Bool) → List pair → List pair)
    (hs : SortSliceContract sortSlice) (T b c : Time) (res : List Time)
    (hb : b.Equal (T.addSeconds 1) = true) (hc : c.Equal (T.addSeconds 10) = true)
    (hperm : res.Perm [T, b, c]) :
    candidate sortSlice res = some T.Local ∧ T.Local.Equal T = true ∧
      ∀ (rtime : Time) (timedout : Bool) (wakes : List Obs), rtime.Before T = true →
        Now sortSlice rtime (⟨res, timedout⟩ :: wakes) = Outcome.quorum T.Local T.Local := by
  rw [Time.equal_iff, Time.nanos_addSeconds] at hb hc
  have hlen : res.length = 3 := hperm.length_eq
  have hcand : candidate sortSlice res = some T.Local := by
    rw [candidate_perm sortSlice sortSlice hs hs res [T, b, c] (by omega) hperm]
    obtain ⟨p, hp, hpmem, hpmin⟩ := candidate_spec sortSlice hs [T, b, c] (by simp)
    rw [hp]
    have h0 := hpmin (mkPair T b) (by simp [pairList])
    rw [less_false_iff] at h0
    have hTb := mkPair_of_le T b (by omega)
    have hTc := mkPair_of_le T c (by omega)
    have hbc := mkPair_of_le b c (by omega)
    simp only [maxDuration] at hTb hTc hbc
    have hnanos : p.tm0.nanos = T.nanos := by
      simp only [pairList, List.map_cons, List.map_nil, List.cons_append, List.nil_append,
        List.append_nil, List.mem_cons, List.mem_singleton, List.not_mem_nil, or_false] at hpmem
      rcases hpmem with rfl | rfl | rfl
      · exact hTb.1
      · omega
      · omega
    rw [Time.local_eq_of_nanos_eq p.tm0 T hnanos]
  refine ⟨hcand, by rw [Time.equal_iff, Time.nanos_local], ?_⟩
  intro rtime timedout wakes hr
  rw [Time.before_iff] at hr
  rw [Now_cons_quorum sortSlice rtime ⟨res, timedout⟩ wakes T.Local (by simp [hlen]) hcand,
    if_pos (by rw [Time.after_iff, Time.nanos_local]; exact hr)]

/-- C6, an instance: the outlier arrives first and `T` last. -/
theorem now_rejects_outlier_witness :
    candidate insertionSortSlice [y2000s10, y2000s1, y2000] = some y2000.Local ∧
      y2000.Local.Equal y2000 = true ∧
      ∀ (rtime : Time) (timedout : Bool) (wakes : List Obs), rtime.Before y2000 = true →
        Now insertionSortSlice rtime (⟨[y2000s10, y2000s1, y2000], timedout⟩ :: wakes) =
          Outcome.quorum y2000.Local y2000.Local :=
  now_rejects_outlier insertionSortSlice insertionSortSlice_contract y2000 y2000s1 y2000s10
    [y2000s10, y2000s1, y2000] (by decide) (by decide) (by decide)

/-! ## The selection against the rule of the specification -/

theorem earlierOf_nanos (ab : Time × Time) :
    (earlierOf ab).nanos = min ab.1.nanos ab.2.nanos := by
  unfold earlierOf
  by_cases h : ab.2.Before ab.1 = true
  · rw [if_pos h]
    rw [Time.before_iff] at h
    omega
  · rw [if_neg h]
    rw [Bool.not_eq_true, Time.before_false_iff] at h
    omega

theorem mkPair_key (ab : Time × Time) :
    (mkPair ab.1 ab.2).diff = min (absDiff ab.1 ab.2) maxDuration ∧
      (mkPair ab.1 ab.2).tm0.nanos = (earlierOf ab).nanos := by
  rw [mkPair_diff, mkPair_tm0_nanos, earlierOf_nanos]
  exact ⟨rfl, rfl⟩

theorem mem_positionPairs (res : List Time) (ab : Time × Time) :
    ab ∈ positionPairs res ↔ ∃ i j : Fin res.length, i < j ∧ ab = (res[i], res[j]) := by
  simp only [positionPairs, List.mem_flatMap, List.mem_map, List.mem_filter, List.mem_finRange,
    true_and, decide_eq_true_eq]
  constructor
  · rintro ⟨i, j, hij, h⟩
    exact ⟨i, j, hij, h.symm⟩
  · rintro ⟨i, j, hij, h⟩
    exact ⟨i, j, hij, h.symm⟩

/-- The elements of `list` are the pairs built for the unordered pairs of positions. -/
theorem mem_pairList_positionPairs (p : pair) (res : List Time) :
    p ∈ pairList res ↔ ∃ ab ∈ positionPairs res, p = mkPair ab.1 ab.2 := by
  rw [mem_pairList_iff]
  constructor
  · rintro ⟨i, j, hi, hj, hij, rfl⟩
    exact ⟨(res[i], res[j]), (mem_positionPairs res _).2 ⟨⟨i, hi⟩, ⟨j, hj⟩, hij, rfl⟩, rfl⟩
  · rintro ⟨ab, hab, rfl⟩
    obtain ⟨i, j, hij, rfl⟩ := (mem_positionPairs res ab).1 hab
    exact ⟨i.val, j.val, i.isLt, j.isLt, hij, rfl⟩

/-- Whatever `sort.Slice` does within its contract, the candidate is the one insertion sort
gives. -/
theorem candidate_eq_of_contract (sortSlice : (pair → pair → Bool) → List pair → List pair)
    (hs : SortSliceContract sortSlice) (res : List Time) (hlen : 2 ≤ res.length) :
    candidate sortSlice res = candidate insertionSortSlice res :=
  candidate_perm sortSlice insertionSortSlice hs insertionSortSlice_contract res res hlen
    (List.Perm.refl res)

/-- C2: the closest-pair rule, which the comment at lines 70 to 72 of `rtime.go` announces
("find the two that have the least difference in time and take the smaller of the two"), is
not what `Now` computes for results of the years 1000, 1400 and 1700.  Every two of them are
more than `maxDuration` (about 292 years) apart, so all three pairs record
`diff = maxDuration` and the sort falls back on `tm0`: the candidate is the year 1000 and
`Now` returns it, while the closest pair is (1400, 1700) and the rule gives the year 1400. -/
theorem candidate_differs_from_reference :
    3 ≤ [y1000, y1400, y1700].length ∧
      (pairList [y1000, y1400, y1700]).map (fun p => p.diff) =
        [maxDuration, maxDuration, maxDuration] ∧
      candidate insertionSortSlice [y1000, y1400, y1700] = some y1000.Local ∧
      Now insertionSortSlice Time.zero [⟨[y1000, y1400, y1700], false⟩] =
        Outcome.quorum y1000.Local y1000.Local ∧
      referenceCandidates [y1000, y1400, y1700] = [y1400] ∧
      y1000.Local.Equal y1400 = false := by
  decide

/-- Where the closest-pair rule and `Now` agree: for three results or more of which some two
are less than `maxDuration` (2^63 - 1 nanoseconds) apart, the candidate computed by `Now` is
the one of the rule of the specification: the rule yields a candidate, and every time it
yields is the instant of the candidate of `Now`. -/
theorem candidate_is_reference (sortSlice : (pair → pair → Bool) → List pair → List pair)
    (hs : SortSliceContract sortSlice) (res : List Time) (hlen : 3 ≤ res.length)
    (hclose : ∃ ab ∈ positionPairs res, absDiff ab.1 ab.2 < maxDuration) :
    ∃ c, candidate sortSlice res = some c ∧ referenceCandidates res ≠ [] ∧
      ∀ r ∈ referenceCandidates res, c.Equal r = true := by
  obtain ⟨p, hp, hpmem, hpmin⟩ := candidate_spec sortSlice hs res (by omega)
  obtain ⟨ab, hab, rfl⟩ := (mem_pairList_positionPairs p res).1 hpmem
  have hkab := mkPair_key ab
  have key : ∀ cd ∈ positionPairs res,
      min (absDiff ab.1 ab.2) maxDuration < min (absDiff cd.1 cd.2) maxDuration ∨
      (min (absDiff ab.1 ab.2) maxDuration = min (absDiff cd.1 cd.2) maxDuration ∧
        (earlierOf ab).nanos ≤ (earlierOf cd).nanos) := by
    intro cd hcd
    have h := hpmin (mkPair cd.1 cd.2) ((mem_pairList_positionPairs _ res).2 ⟨cd, hcd, rfl⟩)
    rw [less_false_iff] at h
    have hkcd := mkPair_key cd
    omega
  obtain ⟨cd0, hcd0, hlt0⟩ := hclose
  have hablt : absDiff ab.1 ab.2 < maxDuration := by
    have := key cd0 hcd0
    omega
  have hclosest : ab ∈ closestPairs res := by
    refine List.mem_filter.2 ⟨hab, decide_eq_true ?_⟩
    intro cd hcd
    have := key cd hcd
    omega
  have hwin : ∀ cd ∈ closestPairs res, (earlierOf cd).Before (earlierOf ab) = false := by
    intro cd hcd
    obtain ⟨hcd1, hcd2⟩ := List.mem_filter.1 hcd
    have hle := of_decide_eq_true hcd2 ab hab
    have := key cd hcd1
    rw [Time.before_false_iff]
    omega
  have hmem : earlierOf ab ∈ referenceCandidates res :=
    List.mem_map.2 ⟨ab, List.mem_filter.2 ⟨hclosest, decide_eq_true hwin⟩, rfl⟩
  refine ⟨(mkPair ab.1 ab.2).tm0.Local, hp, List.ne_nil_of_mem hmem, ?_⟩
  intro r hr
  obtain ⟨cd, hcd, rfl⟩ := List.mem_map.1 hr
  obtain ⟨hcdc, hcdw⟩ := List.mem_filter.1 hcd
  have h1 := of_decide_eq_true hcdw ab hclosest
  have h2 := hwin cd hcdc
  rw [Time.before_false_iff] at h1 h2
  rw [Time.equal_iff, Time.nanos_local]
  omega

/-- An instance of the agreement: the results of the example of the specification. -/
theorem candidate_is_reference_witness :
    ∃ c, candidate insertionSortSlice [y2000s10, y2000s1, y2000] = some c ∧
      referenceCandidates [y2000s10, y2000s1, y2000] ≠ [] ∧
      ∀ r ∈ referenceCandidates [y2000s10, y2000s1, y2000], c.Equal r = true :=
  candidate_is_reference insertionSortSlice insertionSortSlice_contract
    [y2000s10, y2000s1, y2000] (by decide) ⟨(y2000s10, y2000s1), by decide, by decide⟩

/-! ## The recorded difference -/

/-- C10 as stated fails: among three results of which two are of the years 1700 and 2000,
the pair of these two records `diff = maxDuration = 9223372036854775807`, while the instants
are 9467020800000000000 nanoseconds apart. -/
theorem pair_diff_not_exact :
    3 ≤ [y1700, y2000, y2000s1].length ∧
      pairList [y1700, y2000, y2000s1] =
        [⟨y1700, y2000, 9223372036854775807⟩, ⟨y1700, y2000s1, 9223372036854775807⟩,
          ⟨y2000, y2000s1, 1000000000⟩] ∧
      y2000.nanos - y1700.nanos = 9467020800000000000 := by
  decide

/-- C10, amended: the pair recorded for `res[i]`, `res[j]` with `i < j` has the two results as
`tm0` and `tm1` with `tm1` not before `tm0`, and its `diff` is non-negative and is the exact
count of nanoseconds between the two instants cut off at `maxDuration`; it is the exact count
whenever that count is at most `maxDuration` (2^63 - 1 nanoseconds, about 292 years). -/
theorem pair_diff_saturating (res : List Time) (i j : Nat) (hi : i < res.length)
    (hj : j < res.length) (hij : i < j) :
    mkPair res[i] res[j] ∈ pairList res ∧
      (((mkPair res[i] res[j]).tm0 = res[i] ∧ (mkPair res[i] res[j]).tm1 = res[j]) ∨
        ((mkPair res[i] res[j]).tm0 = res[j] ∧ (mkPair res[i] res[j]).tm1 = res[i])) ∧
      (mkPair res[i] res[j]).tm1.Before (mkPair res[i] res[j]).tm0 = false ∧
      0 ≤ (mkPair res[i] res[j]).diff ∧
      (mkPair res[i] res[j]).diff =
        min ((mkPair res[i] res[j]).tm1.nanos - (mkPair res[i] res[j]).tm0.nanos) maxDuration ∧
      ((mkPair res[i] res[j]).tm1.nanos - (mkPair res[i] res[j]).tm0.nanos ≤ maxDuration →
        (mkPair res[i] res[j]).diff =
          (mkPair res[i] res[j]).tm1.nanos - (mkPair res[i] res[j]).tm0.nanos) := by
  refine ⟨(mem_pairList_iff _ res).2 ⟨i, j, hi, hj, hij, rfl⟩, ?_⟩
  generalize res[i] = a
  generalize res[j] = b
  unfold mkPair
  by_cases h : a.After b = true
  · rw [if_pos h]
    rw [Time.after_iff] at h
    have hsub := Time.sub_of_le a b (le_of_lt h)
    have hM : maxDuration = 9223372036854775807 := rfl
    refine ⟨Or.inr ⟨rfl, rfl⟩, ?_, ?_, hsub, ?_⟩
    · show a.Before b = false
      rw [Time.before_false_iff]
      omega
    · show 0 ≤ a.Sub b
      omega
    · show a.nanos - b.nanos ≤ maxDuration → a.Sub b = a.nanos - b.nanos
      omega
  · rw [if_neg h]
    rw [Bool.not_eq_true, Time.after_false_iff] at h
    have hsub := Time.sub_of_le b a h
    have hM : maxDuration = 9223372036854775807 := rfl
    refine ⟨Or.inl ⟨rfl, rfl⟩, ?_, ?_, hsub, ?_⟩
    · show b.Before a = false
      rw [Time.before_false_iff]
      exact h
    · show 0 ≤ b.Sub a
      omega
    · show b.nanos - a.nanos ≤ maxDuration → b.Sub a = b.nanos - a.nanos
      omega

/-- C10, an instance of the amended claim: results one second apart, the later first. -/
theorem pair_diff_saturating_witness :
    mkPair y2000s1 y2000 ∈ pairList [y2000s1, y2000, y2000s10] ∧
      (mkPair y2000s1 y2000).tm0 = y2000 ∧ (mkPair y2000s1 y2000).diff = 1000000000 :=
  have h := pair_diff_saturating [y2000s1, y2000, y2000s10] 0 1 (by decide) (by decide)
    (by decide)
  ⟨h.1, by decide, by decide⟩

end Rtime
